import Mathlib

/-!
# Verification of the GA4/GSC query-breakdown allocator and aggregator

Shallow embedding of `src/app.py` (functions `process_data` and the
aggregation step of `main`).  Numeric cells are modelled as rationals `ℚ`
(exact arithmetic; the float claims in the spec are stated "up to float
rounding of the operation itself", which the rational model realises
exactly).  Nullable numeric cells (pandas `NaN`) are `Option ℚ`.

The allocator `process_data` receives the column-role bindings as
parameters and touches the table only through them, so its core is
embedded over resolved rows (`InRow`), index-based, with the grouping key
extracted exactly as the source builds `groupby_columns` (url, country,
device, optionally date).  A separate name-based `Table` front end models
the pandas column lookups `df[col]`, which raise a key error when the
column is absent — this is the `ColumnNotFoundError` of the spec.

The pandas pipeline mutates `df` in place, column by column; since no
step here deletes, reorders or renumbers rows, the result is equivalent
to the per-index functional form below: each derived column of the final
frame is given by a closed formula over the input rows.  The fallback
loop (lines 43–47 of `app.py`) rewrites `percentage_breakdown` and the
`{col}_estimated` columns of exactly the groups satisfying its guard;
groups partition the rows and the guard and `row_number` only read
columns the loop never writes, so the loop is equivalent to the per-row
conditional override used here.
-/

set_option autoImplicit false

namespace GA4GSC

/-- A cell value of the input table: a string, a number, or null
(pandas `NaN` / missing). -/
inductive Val where
  | str : String → Val
  | num : ℚ → Val
  | null : Val
deriving DecidableEq, Repr, Inhabited

/-- One input row after column-role resolution: the five dimension
columns bound in `main` (url, country, device, date, query), the two
base metrics (nullable, as in the raw CSV), the selected breakdown
metric columns (in the order of `breakdown_columns`), and the remaining
columns of the row, untouched by the core. -/
structure InRow where
  url : Val
  country : Val
  device : Val
  date : Val
  query : Val
  clicks : Option ℚ
  impressions : Option ℚ
  breakdown : List ℚ
  rest : List Val
deriving DecidableEq, Repr, Inhabited

/-- The grouping key of `process_data`: `[url_col, country_col, device_col]`
plus `date_col` when `include_date` is set (app.py lines 20–22). -/
def gkey (includeDate : Bool) (r : InRow) : List Val :=
  [r.url, r.country, r.device] ++ (if includeDate then [r.date] else [])

/-- Clicks value after `fillna(0)` (app.py line 16). -/
def clicksVal (r : InRow) : ℚ := r.clicks.getD 0

/-- Impressions value after `fillna(0)` (app.py line 17). -/
def imprVal (r : InRow) : ℚ := r.impressions.getD 0

/-- Raw value of breakdown column `c` for a row. -/
def breakdownVal (r : InRow) (c : ℕ) : ℚ := r.breakdown.getD c 0

/-- Grouping key of row `i` of the table. -/
def keyAt (inc : Bool) (rows : List InRow) (i : ℕ) : List Val :=
  gkey inc (rows.getD i default)

/-- Indices of the rows in the same group as row `i` (rows sharing the
grouping-key values), in original order. -/
def groupIdxs (inc : Bool) (rows : List InRow) (i : ℕ) : List ℕ :=
  (List.range rows.length).filter (fun j => keyAt inc rows j = keyAt inc rows i)

/-- `total_clicks_by_page` of row `i`: the group sum of clicks
(app.py line 25, a grouped `transform('sum')`). -/
def totalClicksByPage (inc : Bool) (rows : List InRow) (i : ℕ) : ℚ :=
  ((groupIdxs inc rows i).map (fun j => clicksVal (rows.getD j default))).sum

/-- `percentage_breakdown` as first computed (app.py lines 28–31):
clicks over group total if the total is positive, else 0. -/
def pct0 (inc : Bool) (rows : List InRow) (i : ℕ) : ℚ :=
  if 0 < totalClicksByPage inc rows i then
    clicksVal (rows.getD i default) / totalClicksByPage inc rows i
  else 0

/-- `total_{col}_per_page` for breakdown column `c` (app.py line 36). -/
def totalColPerPage (inc : Bool) (rows : List InRow) (c : ℕ) (i : ℕ) : ℚ :=
  ((groupIdxs inc rows i).map (fun j => breakdownVal (rows.getD j default) c)).sum

/-- Tentative `{col}_estimated` (app.py line 37). -/
def est0 (inc : Bool) (rows : List InRow) (c : ℕ) (i : ℕ) : ℚ :=
  pct0 inc rows i * breakdownVal (rows.getD i default) c

/-- Row `j` precedes row `i` in the `rank(method='first', ascending=False)`
order on impressions: strictly larger impressions, or equal impressions
and earlier position. -/
def beatsB (rows : List InRow) (j i : ℕ) : Bool :=
  decide (imprVal (rows.getD i default) < imprVal (rows.getD j default)) ||
    (decide (imprVal (rows.getD j default) = imprVal (rows.getD i default)) &&
      decide (j < i))

/-- `row_number` (app.py line 40): 1 plus the number of rows of the group
ranked before row `i`. -/
def rowNumber (inc : Bool) (rows : List InRow) (i : ℕ) : ℕ :=
  1 + ((groupIdxs inc rows i).filter (fun j => beatsB rows j i)).length

/-- Guard of the fallback loop (app.py line 44): the group's clicks sum
to 0 and some breakdown column has a positive group sum.  `m` is the
number of breakdown columns. -/
def fallbackB (inc : Bool) (m : ℕ) (rows : List InRow) (i : ℕ) : Bool :=
  decide (totalClicksByPage inc rows i = 0) &&
    (List.range m).any (fun c => decide (0 < totalColPerPage inc rows c i))

/-- Final `percentage_breakdown`: the fallback (app.py line 45) overrides
it to `(row_number == 1).astype(int)` on fallback groups. -/
def pctFinal (inc : Bool) (m : ℕ) (rows : List InRow) (i : ℕ) : ℚ :=
  if fallbackB inc m rows i then (if rowNumber inc rows i = 1 then 1 else 0)
  else pct0 inc rows i

/-- Final `{col}_estimated`: recomputed from the overridden percentage on
fallback groups (app.py line 47), otherwise the tentative value. -/
def estFinal (inc : Bool) (m : ℕ) (rows : List InRow) (c : ℕ) (i : ℕ) : ℚ :=
  if fallbackB inc m rows i then
    pctFinal inc m rows i * breakdownVal (rows.getD i default) c
  else est0 inc rows c i

/-- One output row of `process_data`: the input columns (clicks and
impressions now null-filled, as the in-place `fillna` leaves them) plus
the derived columns. -/
structure OutRow where
  url : Val
  country : Val
  device : Val
  date : Val
  query : Val
  clicks : Option ℚ
  impressions : Option ℚ
  breakdown : List ℚ
  rest : List Val
  total_clicks_by_page : ℚ
  percentage_breakdown : ℚ
  total_per_page : List ℚ
  estimated : List ℚ
  row_number : ℕ
deriving DecidableEq, Repr, Inhabited

/-- Output row `i` of `process_data`. -/
def mkOut (inc : Bool) (m : ℕ) (rows : List InRow) (i : ℕ) : OutRow :=
  let r := rows.getD i default
  { url := r.url, country := r.country, device := r.device, date := r.date
    query := r.query
    clicks := some (clicksVal r)
    impressions := some (imprVal r)
    breakdown := r.breakdown
    rest := r.rest
    total_clicks_by_page := totalClicksByPage inc rows i
    percentage_breakdown := pctFinal inc m rows i
    total_per_page := (List.range m).map (fun c => totalColPerPage inc rows c i)
    estimated := (List.range m).map (fun c => estFinal inc m rows c i)
    row_number := rowNumber inc rows i }

/-- `process_data` (app.py lines 14–49) over resolved rows: same rows in
the same order, each augmented with the derived columns.  `inc` is
`include_date`, `m` the number of breakdown columns. -/
def processData (inc : Bool) (m : ℕ) (rows : List InRow) : List OutRow :=
  (List.range rows.length).map (mkOut inc m rows)

/-! ### Basic facts about groups and the output table -/

theorem mem_groupIdxs {inc : Bool} {rows : List InRow} {i j : ℕ} :
    j ∈ groupIdxs inc rows i ↔ j < rows.length ∧ keyAt inc rows j = keyAt inc rows i := by
  simp [groupIdxs, List.mem_filter, List.mem_range]

theorem nodup_groupIdxs (inc : Bool) (rows : List InRow) (i : ℕ) :
    (groupIdxs inc rows i).Nodup :=
  (List.nodup_range _).filter _

theorem groupIdxs_congr (inc : Bool) (rows : List InRow) {i j : ℕ}
    (h : keyAt inc rows j = keyAt inc rows i) :
    groupIdxs inc rows j = groupIdxs inc rows i := by
  unfold groupIdxs
  exact List.filter_congr (fun k _ => by rw [h])

theorem totalClicks_congr (inc : Bool) (rows : List InRow) {i j : ℕ}
    (h : keyAt inc rows j = keyAt inc rows i) :
    totalClicksByPage inc rows j = totalClicksByPage inc rows i := by
  unfold totalClicksByPage
  rw [groupIdxs_congr inc rows h]

theorem totalCol_congr (inc : Bool) (rows : List InRow) (c : ℕ) {i j : ℕ}
    (h : keyAt inc rows j = keyAt inc rows i) :
    totalColPerPage inc rows c j = totalColPerPage inc rows c i := by
  unfold totalColPerPage
  rw [groupIdxs_congr inc rows h]

theorem fallbackB_congr (inc : Bool) (m : ℕ) (rows : List InRow) {i j : ℕ}
    (h : keyAt inc rows j = keyAt inc rows i) :
    fallbackB inc m rows j = fallbackB inc m rows i := by
  have hc : ∀ c, totalColPerPage inc rows c j = totalColPerPage inc rows c i :=
    fun c => totalCol_congr inc rows c h
  simp only [fallbackB, totalClicks_congr inc rows h, hc]

theorem length_processData (inc : Bool) (m : ℕ) (rows : List InRow) :
    (processData inc m rows).length = rows.length := by
  simp [processData]

theorem processData_getD (inc : Bool) (m : ℕ) (rows : List InRow) {j : ℕ}
    (h : j < rows.length) :
    (processData inc m rows).getD j default = mkOut inc m rows j := by
  unfold processData
  rw [List.getD_eq_getElem?_getD, List.getElem?_map, List.getElem?_range h]
  rfl

theorem getD_map_range {f : ℕ → ℚ} {c m : ℕ} (h : c < m) :
    (((List.range m).map f).getD c 0) = f c := by
  rw [List.getD_eq_getElem?_getD, List.getElem?_map, List.getElem?_range h]
  rfl

/-! ### The `rank(method='first', ascending=False)` order

`beats rows j i` is the propositional form of `beatsB`: row `j` is
ranked strictly before row `i`.  It is a strict total order on row
indices (lexicographic on descending impressions, then position), which
is what makes `row_number` a dense `1..group_size` permutation. -/

def beats (rows : List InRow) (j i : ℕ) : Prop :=
  imprVal (rows.getD i default) < imprVal (rows.getD j default) ∨
    (imprVal (rows.getD j default) = imprVal (rows.getD i default) ∧ j < i)

theorem beatsB_iff {rows : List InRow} {j i : ℕ} :
    beatsB rows j i = true ↔ beats rows j i := by
  simp [beatsB, beats]

theorem beats_irrefl (rows : List InRow) (i : ℕ) : ¬ beats rows i i := by
  simp [beats]

theorem beats_trans {rows : List InRow} {a b c : ℕ}
    (h1 : beats rows a b) (h2 : beats rows b c) : beats rows a c := by
  rcases h1 with h1 | ⟨e1, l1⟩ <;> rcases h2 with h2 | ⟨e2, l2⟩
  · exact Or.inl (lt_trans h2 h1)
  · exact Or.inl (e2 ▸ h1)
  · exact Or.inl (e1 ▸ h2)
  · exact Or.inr ⟨e1.trans e2, lt_trans l1 l2⟩

theorem beats_total {rows : List InRow} {j k : ℕ} (h : j ≠ k) :
    beats rows j k ∨ beats rows k j := by
  rcases lt_trichotomy (imprVal (rows.getD j default)) (imprVal (rows.getD k default))
    with hlt | heq | hgt
  · exact Or.inr (Or.inl hlt)
  · rcases Nat.lt_or_ge j k with hjk | hjk
    · exact Or.inl (Or.inr ⟨heq, hjk⟩)
    · exact Or.inr (Or.inr ⟨heq.symm, lt_of_le_of_ne hjk (Ne.symm h)⟩)
  · exact Or.inl (Or.inl hgt)

/-- Rank of row `j` with respect to a finite set `S` of row indices:
one plus the number of rows of `S` ranked before `j`. -/
def rankOf (rows : List InRow) (S : Finset ℕ) (j : ℕ) : ℕ :=
  1 + (S.filter (fun k => beatsB rows k j)).card

theorem rowNumber_eq_rankOf (inc : Bool) (rows : List InRow) (i : ℕ) {j : ℕ}
    (hj : j ∈ groupIdxs inc rows i) :
    rowNumber inc rows j = rankOf rows (groupIdxs inc rows i).toFinset j := by
  have hkey := (mem_groupIdxs.mp hj).2
  unfold rowNumber rankOf
  rw [groupIdxs_congr inc rows hkey]
  congr 1
  rw [← List.toFinset_filter,
    List.toFinset_card_of_nodup ((nodup_groupIdxs inc rows i).filter _)]

theorem one_le_rankOf (rows : List InRow) (S : Finset ℕ) (j : ℕ) :
    1 ≤ rankOf rows S j :=
  Nat.le_add_right 1 _

theorem rankOf_le_card (rows : List InRow) {S : Finset ℕ} {j : ℕ} (hj : j ∈ S) :
    rankOf rows S j ≤ S.card := by
  have hsub : S.filter (fun k => beatsB rows k j) ⊆ S.erase j := by
    intro x hx
    rcases Finset.mem_filter.mp hx with ⟨hxS, hxb⟩
    refine Finset.mem_erase.mpr ⟨?_, hxS⟩
    intro hxj
    exact beats_irrefl rows j (beatsB_iff.mp (hxj ▸ hxb))
  have hcard : (S.filter (fun k => beatsB rows k j)).card ≤ S.card - 1 := by
    have := Finset.card_le_card hsub
    rwa [Finset.card_erase_of_mem hj] at this
  have hpos : 1 ≤ S.card := Finset.card_pos.mpr ⟨j, hj⟩
  unfold rankOf
  omega

theorem rankOf_lt_rankOf (rows : List InRow) {S : Finset ℕ} {j k : ℕ}
    (hj : j ∈ S) (hb : beats rows j k) :
    rankOf rows S j < rankOf rows S k := by
  have hsub : S.filter (fun x => beatsB rows x j) ⊆ S.filter (fun x => beatsB rows x k) := by
    intro x hx
    rcases Finset.mem_filter.mp hx with ⟨hxS, hxb⟩
    exact Finset.mem_filter.mpr ⟨hxS, beatsB_iff.mpr (beats_trans (beatsB_iff.mp hxb) hb)⟩
  have hmem : j ∈ S.filter (fun x => beatsB rows x k) :=
    Finset.mem_filter.mpr ⟨hj, beatsB_iff.mpr hb⟩
  have hnot : j ∉ S.filter (fun x => beatsB rows x j) := by
    intro hx
    exact beats_irrefl rows j (beatsB_iff.mp (Finset.mem_filter.mp hx).2)
  have : (S.filter (fun x => beatsB rows x j)).card < (S.filter (fun x => beatsB rows x k)).card :=
    Finset.card_lt_card ((Finset.ssubset_iff_of_subset hsub).mpr ⟨j, hmem, hnot⟩)
  unfold rankOf
  omega

theorem rankOf_injOn (rows : List InRow) {S : Finset ℕ} {j k : ℕ}
    (hj : j ∈ S) (hk : k ∈ S) (hne : j ≠ k) :
    rankOf rows S j ≠ rankOf rows S k := by
  rcases @beats_total rows j k hne with hb | hb
  · exact Nat.ne_of_lt (rankOf_lt_rankOf rows hj hb)
  · exact Nat.ne_of_gt (rankOf_lt_rankOf rows hk hb)

theorem rankOf_image (rows : List InRow) (S : Finset ℕ) :
    S.image (rankOf rows S) = Finset.Icc 1 S.card := by
  apply Finset.eq_of_subset_of_card_le
  · intro n hn
    rcases Finset.mem_image.mp hn with ⟨j, hj, rfl⟩
    exact Finset.mem_Icc.mpr ⟨one_le_rankOf rows S j, rankOf_le_card rows hj⟩
  · rw [Nat.card_Icc]
    have : (S.image (rankOf rows S)).card = S.card := by
      apply Finset.card_image_of_injOn
      intro j hj k hk hjk
      by_contra hne
      exact rankOf_injOn rows hj hk hne hjk
    omega

theorem rankOf_surj (rows : List InRow) {S : Finset ℕ} {n : ℕ}
    (h1 : 1 ≤ n) (h2 : n ≤ S.card) :
    ∃ j ∈ S, rankOf rows S j = n := by
  have : n ∈ S.image (rankOf rows S) := by
    rw [rankOf_image]
    exact Finset.mem_Icc.mpr ⟨h1, h2⟩
  rcases Finset.mem_image.mp this with ⟨j, hj, hjn⟩
  exact ⟨j, hj, hjn⟩

/-! ### The aggregator (app.py lines 127–137)

`main` re-groups the processed frame by `[url_col, country_col,
device_col, query_col]` and applies `.agg` with `'sum'` for the clicks
column and every `{col}_estimated` column, then `reset_index()`.  A row
of that result is a `KRow`: the key values plus the summed columns —
every non-aggregated column is dropped by `.agg`.  Group keys are
modelled in order of first appearance; pandas emits them sorted, but no
property verified here depends on the order of the output rows. -/

structure KRow where
  key : List Val
  clicks : ℚ
  est : List ℚ
deriving DecidableEq, Repr, Inhabited

/-- Projection of an allocator output row to the columns the aggregator
consumes: key `[url, country, device, query]`, the clicks column and the
`{col}_estimated` columns. -/
def toKRow (r : OutRow) : KRow :=
  { key := [r.url, r.country, r.device, r.query]
    clicks := r.clicks.getD 0
    est := r.estimated }

/-- Distinct keys in order of first appearance (`seen` accumulates the
keys already emitted). -/
def uniqKeysAux (seen : List (List Val)) : List (List Val) → List (List Val)
  | [] => []
  | k :: ks => if k ∈ seen then uniqKeysAux seen ks else k :: uniqKeysAux (k :: seen) ks

def uniqKeys (l : List (List Val)) : List (List Val) := uniqKeysAux [] l

/-- Sum of the clicks column over the rows of group `k`. -/
def sumClicks (rows : List KRow) (k : List Val) : ℚ :=
  ((rows.filter (fun r => r.key = k)).map KRow.clicks).sum

/-- Sum of estimated column `c` over the rows of group `k`. -/
def sumEstAt (rows : List KRow) (k : List Val) (c : ℕ) : ℚ :=
  ((rows.filter (fun r => r.key = k)).map (fun r => r.est.getD c 0)).sum

/-- The collapsed row of group `k`: the key plus the summed columns. -/
def aggRow (m : ℕ) (rows : List KRow) (k : List Val) : KRow :=
  { key := k, clicks := sumClicks rows k
    est := (List.range m).map (sumEstAt rows k) }

/-- The grouped aggregation of app.py lines 127–137: one output row per
distinct key, clicks and each of the `m` estimated columns summed. -/
def aggregate (m : ℕ) (rows : List KRow) : List KRow :=
  (uniqKeys (rows.map KRow.key)).map (aggRow m rows)

/-- The full pipeline of `main` with the collapse checkbox on:
`process_data` followed by the grouped aggregation. -/
def mainAggregate (inc : Bool) (m : ℕ) (rows : List InRow) : List KRow :=
  aggregate m ((processData inc m rows).map toKRow)

theorem mem_uniqKeysAux {seen : List (List Val)} {l : List (List Val)} {a : List Val} :
    a ∈ uniqKeysAux seen l ↔ a ∈ l ∧ a ∉ seen := by
  induction l generalizing seen with
  | nil => simp [uniqKeysAux]
  | cons k ks ih =>
    by_cases hk : k ∈ seen
    · rw [uniqKeysAux, if_pos hk, ih]
      constructor
      · rintro ⟨ha, hs⟩
        exact ⟨List.mem_cons_of_mem _ ha, hs⟩
      · rintro ⟨ha, hs⟩
        rcases List.mem_cons.mp ha with rfl | ha
        · exact absurd hk hs
        · exact ⟨ha, hs⟩
    · rw [uniqKeysAux, if_neg hk]
      constructor
      · intro h
        rcases List.mem_cons.mp h with rfl | h
        · exact ⟨List.mem_cons_self a ks, hk⟩
        · rcases ih.mp h with ⟨ha, hs⟩
          exact ⟨List.mem_cons_of_mem _ ha, fun hm => hs (List.mem_cons_of_mem _ hm)⟩
      · rintro ⟨ha, hs⟩
        rcases List.mem_cons.mp ha with rfl | ha
        · exact List.mem_cons_self a _
        · by_cases hak : a = k
          · exact hak ▸ List.mem_cons_self k _
          · refine List.mem_cons_of_mem _ (ih.mpr ⟨ha, ?_⟩)
            intro hm
            rcases List.mem_cons.mp hm with h1 | h1
            · exact hak h1
            · exact hs h1

theorem mem_uniqKeys {l : List (List Val)} {a : List Val} :
    a ∈ uniqKeys l ↔ a ∈ l := by
  rw [uniqKeys, mem_uniqKeysAux]
  simp

theorem nodup_uniqKeysAux (seen : List (List Val)) (l : List (List Val)) :
    (uniqKeysAux seen l).Nodup := by
  induction l generalizing seen with
  | nil => simp [uniqKeysAux]
  | cons k ks ih =>
    by_cases hk : k ∈ seen
    · rw [uniqKeysAux, if_pos hk]
      exact ih seen
    · rw [uniqKeysAux, if_neg hk]
      refine List.Nodup.cons ?_ (ih (k :: seen))
      intro hmem
      exact (mem_uniqKeysAux.mp hmem).2 (List.mem_cons_self k seen)

theorem nodup_uniqKeys (l : List (List Val)) : (uniqKeys l).Nodup :=
  nodup_uniqKeysAux [] l

theorem uniqKeysAux_of_nodup {l : List (List Val)} (hl : l.Nodup)
    (seen : List (List Val)) (hd : ∀ a ∈ l, a ∉ seen) :
    uniqKeysAux seen l = l := by
  induction l generalizing seen with
  | nil => rfl
  | cons k ks ih =>
    rw [uniqKeysAux, if_neg (hd k (List.mem_cons_self k ks))]
    congr 1
    refine ih (List.Nodup.of_cons hl) (k :: seen) ?_
    intro a ha hmem
    rcases List.mem_cons.mp hmem with rfl | hmem
    · exact (List.nodup_cons.mp hl).1 ha
    · exact hd a (List.mem_cons_of_mem _ ha) hmem

theorem uniqKeys_of_nodup {l : List (List Val)} (hl : l.Nodup) : uniqKeys l = l :=
  uniqKeysAux_of_nodup hl [] (by simp)

theorem length_uniqKeys (l : List (List Val)) :
    (uniqKeys l).length = l.toFinset.card := by
  rw [← List.toFinset_card_of_nodup (nodup_uniqKeys l)]
  congr 1
  ext a
  simp [List.mem_toFinset, mem_uniqKeys]

theorem map_key_aggregate (m : ℕ) (l : List KRow) :
    (aggregate m l).map KRow.key = uniqKeys (l.map KRow.key) := by
  rw [aggregate, List.map_map]
  exact List.map_id _

theorem filter_key_of_not_mem {K : List (List Val)} {f : List Val → KRow}
    (hf : ∀ k, (f k).key = k) {k : List Val} (hk : k ∉ K) :
    (K.map f).filter (fun r => r.key = k) = [] := by
  rw [List.filter_eq_nil_iff]
  intro r hr
  rcases List.mem_map.mp hr with ⟨a, ha, rfl⟩
  simp only [hf, decide_eq_true_eq]
  rintro rfl
  exact hk ha

theorem filter_key_of_nodup {K : List (List Val)} {f : List Val → KRow}
    (hf : ∀ k, (f k).key = k) (hK : K.Nodup) {k : List Val} (hk : k ∈ K) :
    (K.map f).filter (fun r => r.key = k) = [f k] := by
  induction K with
  | nil => cases hk
  | cons a t ih =>
    rcases List.nodup_cons.mp hK with ⟨hat, hT⟩
    rcases List.mem_cons.mp hk with rfl | hk
    · simp only [List.map_cons, List.filter_cons, hf]
      rw [if_pos (by simp), filter_key_of_not_mem hf hat]
    · simp only [List.map_cons, List.filter_cons, hf]
      rw [if_neg (by
        simp only [decide_eq_true_eq]
        rintro rfl
        exact hat hk)]
      exact ih hT hk

/-! ### Name-based table front end

`process_data` reaches the frame only through `df[col]` with its column
parameters: lines 16–17 (clicks, impressions), line 25 (the groupby
columns), line 36/44/47 (the breakdown columns).  In pandas each such
lookup raises a key error when the column is absent — the spec's
`ColumnNotFoundError`.  `processTable` resolves the bound columns in
the order the source first reads them and then runs the resolved core.
The query column and the remaining columns of the frame are never read
by `process_data`, so they are not part of its bindings; the resolved
rows carry them only as placeholders. -/

inductive PDError where
  | columnNotFound : String → PDError
deriving DecidableEq, Repr

structure Table where
  cols : List String
  rows : List (List Val)
deriving DecidableEq, Repr, Inhabited

/-- Column-role bindings handed to `process_data` by `main`. -/
structure Bindings where
  url : String
  country : String
  device : String
  date : String
  clicks : String
  impressions : String
  breakdown : List String
  includeDate : Bool
deriving DecidableEq, Repr, Inhabited

/-- The columns `process_data` looks up, in order of first access. -/
def boundCols (b : Bindings) : List String :=
  [b.clicks, b.impressions, b.url, b.country, b.device] ++
    (if b.includeDate then [b.date] else []) ++ b.breakdown

/-- Numeric reading of a cell; the claims verified here never exercise
non-numeric cells in numeric columns (the spec's `TypeMismatchError` is
out of their scope). -/
def Val.toNum : Val → Option ℚ
  | .num q => some q
  | _ => none

/-- `df[c]`: the values of column `c`, or `ColumnNotFoundError` when the
column is absent from the frame. -/
def getCol (t : Table) (c : String) : Except PDError (List Val) :=
  if c ∈ t.cols then
    .ok (t.rows.map (fun r => r.getD (t.cols.findIdx (fun x => x = c)) Val.null))
  else .error (.columnNotFound c)

/-- `process_data` at the table level: resolve each bound column in the
order the source first reads it (failing like `df[col]` does), then run
the resolved core. -/
def dateCol (t : Table) (b : Bindings) : Except PDError (List Val) :=
  if b.includeDate then getCol t b.date else pure (t.rows.map (fun _ => Val.null))

def processTable (t : Table) (b : Bindings) : Except PDError (List OutRow) := do
  let clicksVals ← getCol t b.clicks
  let imprVals ← getCol t b.impressions
  let urlVals ← getCol t b.url
  let countryVals ← getCol t b.country
  let deviceVals ← getCol t b.device
  let dateVals ← dateCol t b
  let bdVals ← b.breakdown.mapM (getCol t)
  let rows := (List.range t.rows.length).map (fun i =>
    ({ url := urlVals.getD i .null, country := countryVals.getD i .null
       device := deviceVals.getD i .null, date := dateVals.getD i .null
       query := Val.null
       clicks := (clicksVals.getD i .null).toNum
       impressions := (imprVals.getD i .null).toNum
       breakdown := bdVals.map (fun col => ((col.getD i Val.null).toNum).getD 0)
       rest := [] } : InRow))
  pure (processData b.includeDate b.breakdown.length rows)

theorem except_bind_error {α β : Type} (e : PDError) (f : α → Except PDError β) :
    (Except.error e >>= f) = Except.error e := rfl

theorem except_bind_ok {α β : Type} (a : α) (f : α → Except PDError β) :
    (Except.ok a >>= f : Except PDError β) = f a := rfl

theorem getCol_error {t : Table} {c : String} (h : c ∉ t.cols) :
    getCol t c = Except.error (.columnNotFound c) := by
  rw [getCol, if_neg h]

theorem mapM_getCol_error {t : Table} {bs : List String}
    (h : ∃ c ∈ bs, c ∉ t.cols) :
    ∃ c ∈ bs, c ∉ t.cols ∧ bs.mapM (getCol t) = Except.error (.columnNotFound c) := by
  induction bs with
  | nil => simp at h
  | cons b bs ih =>
    by_cases hb : b ∈ t.cols
    · have hbs : ∃ c ∈ bs, c ∉ t.cols := by
        rcases h with ⟨c, hc, hnc⟩
        rcases List.mem_cons.mp hc with rfl | hc
        · exact absurd hb hnc
        · exact ⟨c, hc, hnc⟩
      rcases ih hbs with ⟨c, hc, hnc, hmap⟩
      refine ⟨c, List.mem_cons_of_mem _ hc, hnc, ?_⟩
      rw [List.mapM_cons, getCol, if_pos hb]
      simp only [hmap]
      rfl
    · refine ⟨b, List.mem_cons_self b bs, hb, ?_⟩
      rw [List.mapM_cons, getCol_error hb]
      rfl

/-! ### Projections of the output rows and the fallback guard -/

theorem mkOut_pct (inc : Bool) (m : ℕ) (rows : List InRow) (j : ℕ) :
    (mkOut inc m rows j).percentage_breakdown = pctFinal inc m rows j := rfl

theorem mkOut_est (inc : Bool) (m : ℕ) (rows : List InRow) (j : ℕ) :
    (mkOut inc m rows j).estimated = (List.range m).map (fun c => estFinal inc m rows c j) := rfl

theorem mkOut_rowNum (inc : Bool) (m : ℕ) (rows : List InRow) (j : ℕ) :
    (mkOut inc m rows j).row_number = rowNumber inc rows j := rfl

theorem mkOut_breakdown (inc : Bool) (m : ℕ) (rows : List InRow) (j : ℕ) :
    (mkOut inc m rows j).breakdown = (rows.getD j default).breakdown := rfl

theorem fallbackB_true_of (inc : Bool) (m : ℕ) (rows : List InRow) (i : ℕ)
    (h0 : totalClicksByPage inc rows i = 0)
    (hpos : ∃ c, c < m ∧ 0 < totalColPerPage inc rows c i) :
    fallbackB inc m rows i = true := by
  rcases hpos with ⟨c, hcm, hc⟩
  rw [fallbackB, Bool.and_eq_true]
  constructor
  · simpa using h0
  · rw [List.any_eq_true]
    exact ⟨c, List.mem_range.mpr hcm, by simpa using hc⟩

theorem fallbackB_false_of_pos (inc : Bool) (m : ℕ) (rows : List InRow) (i : ℕ)
    (h : 0 < totalClicksByPage inc rows i) :
    fallbackB inc m rows i = false := by
  have hne : totalClicksByPage inc rows i ≠ 0 := ne_of_gt h
  simp [fallbackB, hne]

theorem fallbackB_false_of_none (inc : Bool) (m : ℕ) (rows : List InRow) (i : ℕ)
    (hneg : ∀ c, c < m → ¬ 0 < totalColPerPage inc rows c i) :
    fallbackB inc m rows i = false := by
  have hany : ((List.range m).any (fun c => decide (0 < totalColPerPage inc rows c i))) = false := by
    rw [List.any_eq_false]
    intro c hc
    simpa using hneg c (List.mem_range.mp hc)
  simp [fallbackB, hany]

theorem pctFinal_of_fallback {inc : Bool} {m : ℕ} {rows : List InRow} {i : ℕ}
    (h : fallbackB inc m rows i = true) :
    pctFinal inc m rows i = (if rowNumber inc rows i = 1 then 1 else 0) := by
  simp [pctFinal, h]

theorem pctFinal_of_not_fallback {inc : Bool} {m : ℕ} {rows : List InRow} {i : ℕ}
    (h : fallbackB inc m rows i = false) :
    pctFinal inc m rows i = pct0 inc rows i := by
  simp [pctFinal, h]

theorem sum_map_ite_one {l : List ℕ} {p : ℕ → Prop} [DecidablePred p] :
    (l.map (fun j => if p j then (1 : ℚ) else 0)).sum
      = ((l.filter (fun j => decide (p j))).length : ℚ) := by
  induction l with
  | nil => simp
  | cons a t ih =>
    by_cases h : p a <;> simp [List.filter_cons, h, ih]
    ring

theorem length_filter_eq_one {l : List ℕ} {p : ℕ → Bool} (hl : l.Nodup)
    (h : ∃! a, a ∈ l ∧ p a = true) : (l.filter p).length = 1 := by
  obtain ⟨a, ⟨hal, hap⟩, huniq⟩ := h
  have hmem : a ∈ l.filter p := List.mem_filter.mpr ⟨hal, hap⟩
  have hall : ∀ x ∈ l.filter p, x = a := fun x hx =>
    huniq x ⟨(List.mem_filter.mp hx).1, (List.mem_filter.mp hx).2⟩
  have hnd : (l.filter p).Nodup := hl.filter p
  rcases hfl : l.filter p with _ | ⟨x, _ | ⟨y, t⟩⟩
  · rw [hfl] at hmem
    cases hmem
  · rfl
  · exfalso
    rw [hfl] at hall hnd
    have hx : x = a := hall x (List.mem_cons_self _ _)
    have hy : y = a := hall y (List.mem_cons_of_mem _ (List.mem_cons_self _ _))
    have := (List.nodup_cons.mp hnd).1
    exact this (by rw [hx, hy]; exact List.mem_cons_self _ _)

/-! ### Concrete inputs (the worked examples of the spec) -/

/-- A row of a single fixed group; only the metrics vary. -/
def exRow (c im : Option ℚ) (bs : List ℚ) : InRow :=
  { url := .str "u", country := .str "x", device := .str "d", date := .str "t"
    query := .str "q", clicks := c, impressions := im, breakdown := bs, rest := [] }

/-- Zero-click fallback example: clicks `[0,0,0]`, impressions
`[5,10,3]`, breakdown metric `sessions = [2,4,1]`. -/
def ex1 : List InRow :=
  [exRow (some 0) (some 5) [2], exRow (some 0) (some 10) [4], exRow (some 0) (some 3) [1]]

/-- Non-degenerate example: clicks `[3,1]`, `sessions = [10,10]`. -/
def ex2 : List InRow :=
  [exRow (some 3) (some 1) [10], exRow (some 1) (some 2) [10]]

/-- Rank example: one group with impressions `[5,5,9]`. -/
def ex3 : List InRow :=
  [exRow (some 1) (some 5) [0], exRow (some 1) (some 5) [0], exRow (some 1) (some 9) [0]]

/-- A group with zero clicks and a zero breakdown column. -/
def ex4 : List InRow := [exRow (some 0) (some 5) [0], exRow (some 0) (some 7) [0]]

/-- A row whose clicks cell is null. -/
def exNull : List InRow := [exRow none (some 5) [3]]

/-! ### The claims -/

/-- **C2** (invariant): for every group whose `total_clicks_by_page` is
positive, the sum of the output column `percentage_breakdown` over the
group's rows equals 1 — exactly, in the rational model, hence within
floating-point tolerance in the float implementation. -/
theorem C2_group_pct_sums_to_one (inc : Bool) (m : ℕ) (rows : List InRow) (i : ℕ)
    (h : 0 < totalClicksByPage inc rows i) :
    ((groupIdxs inc rows i).map
      (fun j => ((processData inc m rows).getD j default).percentage_breakdown)).sum = 1 := by
  have hmap : (groupIdxs inc rows i).map
      (fun j => ((processData inc m rows).getD j default).percentage_breakdown)
      = (groupIdxs inc rows i).map
        (fun j => clicksVal (rows.getD j default) * (totalClicksByPage inc rows i)⁻¹) := by
    apply List.map_congr_left
    intro j hj
    rcases mem_groupIdxs.mp hj with ⟨hlen, hkey⟩
    rw [processData_getD inc m rows hlen, mkOut_pct]
    have hTj := totalClicks_congr inc rows hkey
    have hfb : fallbackB inc m rows j = false := by
      apply fallbackB_false_of_pos
      rw [hTj]
      exact h
    rw [pctFinal_of_not_fallback hfb, pct0, hTj, if_pos h, div_eq_mul_inv]
  rw [hmap, List.sum_map_mul_right]
  have hT : ((groupIdxs inc rows i).map (fun j => clicksVal (rows.getD j default))).sum
      = totalClicksByPage inc rows i := rfl
  rw [hT]
  exact mul_inv_cancel₀ (ne_of_gt h)

/-- Witness for C2 on the spec's non-degenerate example `ex2`
(clicks `[3,1]`). -/
theorem C2_witness :
    0 < totalClicksByPage true ex2 0 ∧
    ((groupIdxs true ex2 0).map
      (fun j => ((processData true 1 ex2).getD j default).percentage_breakdown)).sum = 1 := by
  have h : 0 < totalClicksByPage true ex2 0 := by
    simp +decide [totalClicksByPage, groupIdxs, keyAt, gkey, clicksVal, ex2, exRow,
      List.range_succ]
    norm_num
  exact ⟨h, C2_group_pct_sums_to_one true 1 ex2 0 h⟩

/-- **C3**: `percentage_breakdown` as first computed (before the
zero-click fallback) is the row's null-filled clicks value divided by
the group total when that total is positive, and 0 when the total is 0.
`clicksVal` is the clicks cell after `fillna(0)`. -/
theorem C3_pct0_division (inc : Bool) (rows : List InRow) (i : ℕ) :
    (0 < totalClicksByPage inc rows i →
      pct0 inc rows i
        = ((rows.getD i default).clicks.getD 0) / totalClicksByPage inc rows i)
    ∧ (totalClicksByPage inc rows i = 0 → pct0 inc rows i = 0) := by
  constructor
  · intro h
    rw [pct0, if_pos h]
    rfl
  · intro h
    rw [pct0, if_neg (by rw [h]; exact lt_irrefl 0)]

/-- Witness for C3: the positive-total case on `ex2`, the zero-total
case on `ex1`. -/
theorem C3_witness :
    (0 < totalClicksByPage true ex2 0 ∧
      pct0 true ex2 0 = ((ex2.getD 0 default).clicks.getD 0) / totalClicksByPage true ex2 0)
    ∧ (totalClicksByPage true ex1 0 = 0 ∧ pct0 true ex1 0 = 0) := by
  have h2 : 0 < totalClicksByPage true ex2 0 := by
    simp +decide [totalClicksByPage, groupIdxs, keyAt, gkey, clicksVal, ex2, exRow,
      List.range_succ]
    norm_num
  have h1 : totalClicksByPage true ex1 0 = 0 := by
    simp +decide [totalClicksByPage, groupIdxs, keyAt, gkey, clicksVal, ex1, exRow,
      List.range_succ]
  exact ⟨⟨h2, (C3_pct0_division true ex2 0).1 h2⟩, ⟨h1, (C3_pct0_division true ex1 0).2 h1⟩⟩

/-- **C4**: in the allocator's output, every `{col}_estimated` cell is
exactly the final `percentage_breakdown` of its row times the row's raw
breakdown value (exact in the rational model, i.e. up to the float
rounding of the single multiplication). -/
theorem C4_estimated_eq_pct_mul_raw (inc : Bool) (m : ℕ) (rows : List InRow)
    (i c : ℕ) (hi : i < rows.length) (hc : c < m) :
    ((processData inc m rows).getD i default).estimated.getD c 0
      = ((processData inc m rows).getD i default).percentage_breakdown
        * ((processData inc m rows).getD i default).breakdown.getD c 0 := by
  rw [processData_getD inc m rows hi, mkOut_est, mkOut_pct, mkOut_breakdown,
    getD_map_range hc]
  cases hfb : fallbackB inc m rows i with
  | true => simp [estFinal, hfb, breakdownVal]
  | false => simp [estFinal, est0, hfb, pctFinal_of_not_fallback hfb, breakdownVal]

/-- Witness for C4 on the fallback example `ex1`, row 1, column 0. -/
theorem C4_witness :
    ((1 : ℕ) < ex1.length ∧ (0 : ℕ) < 1) ∧
    ((processData true 1 ex1).getD 1 default).estimated.getD 0 0
      = ((processData true 1 ex1).getD 1 default).percentage_breakdown
        * ((processData true 1 ex1).getD 1 default).breakdown.getD 0 0 :=
  ⟨⟨by decide, by decide⟩,
    C4_estimated_eq_pct_mul_raw true 1 ex1 1 0 (by decide) (by decide)⟩

/-- **C1** (zero-click fallback): in every group whose clicks sum to 0
while some breakdown column has a positive group sum, the output
`percentage_breakdown` is 1 on the row with `row_number == 1` and 0 on
every other row, and every `{col}_estimated` is the overridden
percentage times the row's raw breakdown value. -/
theorem C1_zero_click_fallback (inc : Bool) (m : ℕ) (rows : List InRow) (i : ℕ)
    (h0 : totalClicksByPage inc rows i = 0)
    (hpos : ∃ c, c < m ∧ 0 < totalColPerPage inc rows c i) :
    ∀ j ∈ groupIdxs inc rows i,
      ((processData inc m rows).getD j default).percentage_breakdown
          = (if rowNumber inc rows j = 1 then 1 else 0)
      ∧ ∀ c, c < m →
          ((processData inc m rows).getD j default).estimated.getD c 0
            = (if rowNumber inc rows j = 1 then (1 : ℚ) else 0)
              * (rows.getD j default).breakdown.getD c 0 := by
  intro j hj
  rcases mem_groupIdxs.mp hj with ⟨hlen, hkey⟩
  have hfb : fallbackB inc m rows j = true := by
    rw [fallbackB_congr inc m rows hkey]
    exact fallbackB_true_of inc m rows i h0 hpos
  constructor
  · rw [processData_getD inc m rows hlen, mkOut_pct, pctFinal_of_fallback hfb]
  · intro c hc
    rw [processData_getD inc m rows hlen, mkOut_est, getD_map_range hc]
    simp [estFinal, hfb, pctFinal_of_fallback hfb, breakdownVal]

/-- Witness for C1 on the spec's example `ex1` (clicks `[0,0,0]`,
impressions `[5,10,3]`, sessions `[2,4,1]`): the impressions-10 row gets
percentage 1 and estimate 4, the others 0. -/
theorem C1_witness :
    (totalClicksByPage true ex1 0 = 0 ∧ (0 : ℕ) < 1
      ∧ 0 < totalColPerPage true ex1 0 0 ∧ (1 : ℕ) ∈ groupIdxs true ex1 0) ∧
    ((processData true 1 ex1).getD 1 default).percentage_breakdown
        = (if rowNumber true ex1 1 = 1 then 1 else 0) ∧
    (processData true 1 ex1).map (fun o => o.percentage_breakdown) = [0, 1, 0] ∧
    (processData true 1 ex1).map (fun o => o.estimated) = [[0], [4], [0]] := by
  have h0 : totalClicksByPage true ex1 0 = 0 := by
    simp +decide [totalClicksByPage, groupIdxs, keyAt, gkey, clicksVal, ex1, exRow,
      List.range_succ]
  have hc : 0 < totalColPerPage true ex1 0 0 := by
    simp +decide [totalColPerPage, groupIdxs, keyAt, gkey, breakdownVal, ex1, exRow,
      List.range_succ]
    norm_num
  have hj : (1 : ℕ) ∈ groupIdxs true ex1 0 := by
    simp +decide [groupIdxs, keyAt, gkey, ex1, exRow, List.range_succ]
  refine ⟨⟨h0, by decide, hc, hj⟩,
    (C1_zero_click_fallback true 1 ex1 0 h0 ⟨0, by decide, hc⟩ 1 hj).1, ?_, ?_⟩
  · simp +decide [processData, mkOut, pctFinal, pct0, fallbackB, totalClicksByPage,
      totalColPerPage, groupIdxs, keyAt, gkey, clicksVal, breakdownVal, imprVal,
      rowNumber, beatsB, est0, estFinal, ex1, exRow, List.range_succ]
    norm_num
  · simp +decide [processData, mkOut, pctFinal, pct0, fallbackB, totalClicksByPage,
      totalColPerPage, groupIdxs, keyAt, gkey, clicksVal, breakdownVal, imprVal,
      rowNumber, beatsB, est0, estFinal, ex1, exRow, List.range_succ]
    norm_num

/-- **C5**: within each group, `row_number` is at least 1 and at most
the group size, is injective on the group, is strictly monotone with
respect to the descending-impressions / original-order comparison
`beats`, and attains every value from 1 to the group size: a dense
`1..group_size` permutation even for equal impressions. -/
theorem C5_row_number_dense_rank (inc : Bool) (rows : List InRow) (i : ℕ) :
    (∀ j ∈ groupIdxs inc rows i,
        1 ≤ rowNumber inc rows j ∧ rowNumber inc rows j ≤ (groupIdxs inc rows i).length)
    ∧ (∀ j ∈ groupIdxs inc rows i, ∀ k ∈ groupIdxs inc rows i, j ≠ k →
        rowNumber inc rows j ≠ rowNumber inc rows k)
    ∧ (∀ j ∈ groupIdxs inc rows i, ∀ k ∈ groupIdxs inc rows i, beats rows j k →
        rowNumber inc rows j < rowNumber inc rows k)
    ∧ (∀ n, 1 ≤ n → n ≤ (groupIdxs inc rows i).length →
        ∃ j ∈ groupIdxs inc rows i, rowNumber inc rows j = n) := by
  have hcard : (groupIdxs inc rows i).toFinset.card = (groupIdxs inc rows i).length :=
    List.toFinset_card_of_nodup (nodup_groupIdxs inc rows i)
  refine ⟨?_, ?_, ?_, ?_⟩
  · intro j hj
    rw [rowNumber_eq_rankOf inc rows i hj]
    exact ⟨one_le_rankOf _ _ _,
      hcard ▸ rankOf_le_card rows (List.mem_toFinset.mpr hj)⟩
  · intro j hj k hk hne
    rw [rowNumber_eq_rankOf inc rows i hj, rowNumber_eq_rankOf inc rows i hk]
    exact rankOf_injOn rows (List.mem_toFinset.mpr hj) (List.mem_toFinset.mpr hk) hne
  · intro j hj k hk hb
    rw [rowNumber_eq_rankOf inc rows i hj, rowNumber_eq_rankOf inc rows i hk]
    exact rankOf_lt_rankOf rows (List.mem_toFinset.mpr hj) hb
  · intro n h1 h2
    obtain ⟨j, hjS, hjn⟩ := rankOf_surj rows h1 (hcard ▸ h2)
    refine ⟨j, List.mem_toFinset.mp hjS, ?_⟩
    rw [rowNumber_eq_rankOf inc rows i (List.mem_toFinset.mp hjS)]
    exact hjn

/-- Witness for C5 on `ex3` (one group, impressions `[5,5,9]`): the
impressions-9 row is ranked before row 0, and the ranks are `[2,3,1]`. -/
theorem C5_witness :
    ((2 : ℕ) ∈ groupIdxs true ex3 0 ∧ (0 : ℕ) ∈ groupIdxs true ex3 0 ∧ beats ex3 2 0) ∧
    rowNumber true ex3 2 < rowNumber true ex3 0 ∧
    (processData true 1 ex3).map (fun o => o.row_number) = [2, 3, 1] := by
  have h2 : (2 : ℕ) ∈ groupIdxs true ex3 0 := by
    simp +decide [groupIdxs, keyAt, gkey, ex3, exRow, List.range_succ]
  have h0 : (0 : ℕ) ∈ groupIdxs true ex3 0 := by
    simp +decide [groupIdxs, keyAt, gkey, ex3, exRow, List.range_succ]
  have hb : beats ex3 2 0 := by
    refine Or.inl ?_
    simp [imprVal, ex3, exRow]
    norm_num
  refine ⟨⟨h2, h0, hb⟩, (C5_row_number_dense_rank true ex3 0).2.2.1 2 h2 0 h0 hb, ?_⟩
  simp +decide [processData, mkOut, rowNumber, beatsB, groupIdxs, keyAt, gkey,
    imprVal, ex3, exRow, List.range_succ]

/-- **C10** (implicit): a group selected by the zero-click fallback has
exactly one row with `row_number == 1`, so the overridden
`percentage_breakdown` sums to exactly 1 over the group; a group whose
clicks sum to 0 with no positive breakdown column keeps
`percentage_breakdown = 0` everywhere, summing to 0. -/
theorem C10_fallback_group_sums (inc : Bool) (m : ℕ) (rows : List InRow) (i : ℕ) :
    ((totalClicksByPage inc rows i = 0
        ∧ (∃ c, c < m ∧ 0 < totalColPerPage inc rows c i)) →
      (∃! j, j ∈ groupIdxs inc rows i ∧ rowNumber inc rows j = 1)
      ∧ ((groupIdxs inc rows i).map (fun j => pctFinal inc m rows j)).sum = 1)
    ∧ ((totalClicksByPage inc rows i = 0
        ∧ (∀ c, c < m → ¬ 0 < totalColPerPage inc rows c i)) →
      (∀ j ∈ groupIdxs inc rows i, pctFinal inc m rows j = 0)
      ∧ ((groupIdxs inc rows i).map (fun j => pctFinal inc m rows j)).sum = 0) := by
  constructor
  · rintro ⟨h0, hpos⟩
    have hne : groupIdxs inc rows i ≠ [] := by
      rcases hpos with ⟨c, _, hc⟩
      intro hG
      rw [totalColPerPage, hG] at hc
      simp at hc
    have hcard : (groupIdxs inc rows i).toFinset.card = (groupIdxs inc rows i).length :=
      List.toFinset_card_of_nodup (nodup_groupIdxs inc rows i)
    have hcardpos : 1 ≤ (groupIdxs inc rows i).toFinset.card := by
      rw [hcard]
      exact List.length_pos.mpr hne
    obtain ⟨j0, hj0S, hj0⟩ := rankOf_surj rows le_rfl hcardpos
    have hj0G : j0 ∈ groupIdxs inc rows i := List.mem_toFinset.mp hj0S
    have hj0num : rowNumber inc rows j0 = 1 := by
      rw [rowNumber_eq_rankOf inc rows i hj0G]
      exact hj0
    have huniq : ∃! j, j ∈ groupIdxs inc rows i ∧ rowNumber inc rows j = 1 := by
      refine ⟨j0, ⟨hj0G, hj0num⟩, ?_⟩
      rintro y ⟨hyG, hynum⟩
      by_contra hne2
      exact rankOf_injOn rows (List.mem_toFinset.mpr hyG) hj0S hne2
        (by
          rw [← rowNumber_eq_rankOf inc rows i hyG, ← rowNumber_eq_rankOf inc rows i hj0G,
            hynum, hj0num])
    refine ⟨huniq, ?_⟩
    have hmap : (groupIdxs inc rows i).map (fun j => pctFinal inc m rows j)
        = (groupIdxs inc rows i).map
          (fun j => if rowNumber inc rows j = 1 then (1 : ℚ) else 0) := by
      apply List.map_congr_left
      intro j hj
      have hkey := (mem_groupIdxs.mp hj).2
      have hfb : fallbackB inc m rows j = true := by
        rw [fallbackB_congr inc m rows hkey]
        exact fallbackB_true_of inc m rows i h0 hpos
      exact pctFinal_of_fallback hfb
    rw [hmap, sum_map_ite_one, length_filter_eq_one (nodup_groupIdxs inc rows i)]
    · exact Nat.cast_one
    · obtain ⟨j0, hj0, hu⟩ := huniq
      exact ⟨j0, ⟨hj0.1, by simpa using hj0.2⟩, fun y hy => hu y ⟨hy.1, by simpa using hy.2⟩⟩
  · rintro ⟨h0, hneg⟩
    have hzero : ∀ j ∈ groupIdxs inc rows i, pctFinal inc m rows j = 0 := by
      intro j hj
      have hkey := (mem_groupIdxs.mp hj).2
      have hfb : fallbackB inc m rows j = false := by
        rw [fallbackB_congr inc m rows hkey]
        exact fallbackB_false_of_none inc m rows i hneg
      rw [pctFinal_of_not_fallback hfb, pct0,
        if_neg (by rw [totalClicks_congr inc rows hkey, h0]; exact lt_irrefl 0)]
    refine ⟨hzero, ?_⟩
    apply List.sum_eq_zero
    intro x hx
    rcases List.mem_map.mp hx with ⟨j, hj, rfl⟩
    exact hzero j hj

/-- Witness for C10: the fallback case on `ex1`, the all-zero case on
`ex4` (clicks `[0,0]`, breakdown column identically 0). -/
theorem C10_witness :
    (totalClicksByPage true ex1 0 = 0 ∧ 0 < totalColPerPage true ex1 0 0
      ∧ ((groupIdxs true ex1 0).map (fun j => pctFinal true 1 ex1 j)).sum = 1)
    ∧ (totalClicksByPage true ex4 0 = 0
      ∧ ((groupIdxs true ex4 0).map (fun j => pctFinal true 1 ex4 j)).sum = 0) := by
  have h0 : totalClicksByPage true ex1 0 = 0 := by
    simp +decide [totalClicksByPage, groupIdxs, keyAt, gkey, clicksVal, ex1, exRow,
      List.range_succ]
  have hc : 0 < totalColPerPage true ex1 0 0 := by
    simp +decide [totalColPerPage, groupIdxs, keyAt, gkey, breakdownVal, ex1, exRow,
      List.range_succ]
    norm_num
  have h4 : totalClicksByPage true ex4 0 = 0 := by
    simp +decide [totalClicksByPage, groupIdxs, keyAt, gkey, clicksVal, ex4, exRow,
      List.range_succ]
  have hneg : ∀ c, c < 1 → ¬ 0 < totalColPerPage true ex4 c 0 := by
    intro c hc1
    interval_cases c
    simp +decide [totalColPerPage, groupIdxs, keyAt, gkey, breakdownVal, ex4, exRow,
      List.range_succ]
  exact ⟨⟨h0, hc,
      ((C10_fallback_group_sums true 1 ex1 0).1 ⟨h0, 0, by decide, hc⟩).2⟩,
    ⟨h4, ((C10_fallback_group_sums true 1 ex4 0).2 ⟨h4, hneg⟩).2⟩⟩

/-- **C6**: the aggregator applied to the allocator's output emits
exactly one row per distinct key tuple present in its input — the keys
of the output are exactly the distinct input keys, with no duplicates —
with the clicks column and every `{col}_estimated` column summed over
the collapsed group, and its row count is the number of distinct
group-key tuples of its input.  (All non-aggregated columns are dropped
by construction: a `KRow` carries nothing else.) -/
theorem C6_aggregator_shape (inc : Bool) (m : ℕ) (rows : List InRow) :
    ((mainAggregate inc m rows).map KRow.key).Nodup
    ∧ (∀ k, k ∈ (mainAggregate inc m rows).map KRow.key ↔
        k ∈ ((processData inc m rows).map toKRow).map KRow.key)
    ∧ (∀ r ∈ mainAggregate inc m rows,
        r.clicks = sumClicks ((processData inc m rows).map toKRow) r.key
        ∧ ∀ c, c < m →
            r.est.getD c 0 = sumEstAt ((processData inc m rows).map toKRow) r.key c)
    ∧ (mainAggregate inc m rows).length
        = (((processData inc m rows).map toKRow).map KRow.key).toFinset.card := by
  refine ⟨?_, ?_, ?_, ?_⟩
  · rw [mainAggregate, map_key_aggregate]
    exact nodup_uniqKeys _
  · intro k
    rw [mainAggregate, map_key_aggregate]
    exact mem_uniqKeys
  · intro r hr
    rw [mainAggregate, aggregate] at hr
    rcases List.mem_map.mp hr with ⟨k, _, rfl⟩
    refine ⟨rfl, ?_⟩
    intro c hc
    show ((List.range m).map
      (sumEstAt ((processData inc m rows).map toKRow) k)).getD c 0 = _
    rw [getD_map_range hc]
    rfl
  · rw [mainAggregate, aggregate, List.length_map, length_uniqKeys]

/-- Witness for C6 on `ex1` (a single group): the collapsed output's
one row carries the summed clicks. -/
theorem C6_witness :
    (mainAggregate true 1 ex1).getD 0 default ∈ mainAggregate true 1 ex1 ∧
    ((mainAggregate true 1 ex1).getD 0 default).clicks
      = sumClicks ((processData true 1 ex1).map toKRow)
          ((mainAggregate true 1 ex1).getD 0 default).key := by
  have hlen : 0 < (mainAggregate true 1 ex1).length := by
    simp +decide [mainAggregate, aggregate, uniqKeys, uniqKeysAux, processData, mkOut,
      toKRow, ex1, exRow, List.range_succ]
  have hmem : (mainAggregate true 1 ex1).getD 0 default ∈ mainAggregate true 1 ex1 := by
    rw [List.getD_eq_getElem _ _ hlen]
    exact List.getElem_mem hlen
  exact ⟨hmem, ((C6_aggregator_shape true 1 ex1).2.2.1 _ hmem).1⟩

/-- **C7**: the aggregator is idempotent on input already unique on the
aggregation key: aggregating twice with the same key equals aggregating
once (the reduce is a sum — commutative, associative, deterministic). -/
theorem C7_aggregate_idempotent (m : ℕ) (l : List KRow)
    (_h : (l.map KRow.key).Nodup) :
    aggregate m (aggregate m l) = aggregate m l := by
  have hkeys : (aggregate m l).map KRow.key = uniqKeys (l.map KRow.key) :=
    map_key_aggregate m l
  rw [aggregate, hkeys, uniqKeys_of_nodup (nodup_uniqKeys _)]
  conv_rhs => rw [aggregate]
  apply List.map_congr_left
  intro k hk
  have hfilter : (aggregate m l).filter (fun r => r.key = k) = [aggRow m l k] := by
    rw [aggregate]
    exact filter_key_of_nodup (fun _ => rfl) (nodup_uniqKeys _) hk
  have hclicks : sumClicks (aggregate m l) k = sumClicks l k := by
    rw [sumClicks, hfilter]
    simp [aggRow]
  have hest : ∀ c, c < m → sumEstAt (aggregate m l) k c = sumEstAt l k c := by
    intro c hc
    rw [sumEstAt, hfilter]
    simp [aggRow, List.getElem?_range hc]
  simp only [aggRow, KRow.mk.injEq, true_and]
  refine ⟨hclicks, ?_⟩
  apply List.map_congr_left
  intro c hc
  exact hest c (List.mem_range.mp hc)

/-- Two rows already unique on the key. -/
def exK : List KRow :=
  [{ key := [.str "a"], clicks := 2, est := [3] },
   { key := [.str "b"], clicks := 5, est := [7] }]

/-- Witness for C7 on `exK`. -/
theorem C7_witness :
    (exK.map KRow.key).Nodup ∧ aggregate 1 (aggregate 1 exK) = aggregate 1 exK :=
  ⟨by simp +decide [exK], C7_aggregate_idempotent 1 exK (by simp +decide [exK])⟩

/-- **C8 (amended)**: the allocator emits exactly the input rows, in
order — same length, and for each index the dimension columns, raw
breakdown columns and remaining columns are unchanged — while the
clicks and impressions columns are unchanged *except* that null cells
are replaced by 0 (the in-place `fillna(0)` of app.py lines 16–17). -/
theorem C8_allocator_frame (inc : Bool) (m : ℕ) (rows : List InRow) :
    (processData inc m rows).length = rows.length
    ∧ ∀ i, i < rows.length →
        ((processData inc m rows).getD i default).url = (rows.getD i default).url
        ∧ ((processData inc m rows).getD i default).country = (rows.getD i default).country
        ∧ ((processData inc m rows).getD i default).device = (rows.getD i default).device
        ∧ ((processData inc m rows).getD i default).date = (rows.getD i default).date
        ∧ ((processData inc m rows).getD i default).query = (rows.getD i default).query
        ∧ ((processData inc m rows).getD i default).breakdown = (rows.getD i default).breakdown
        ∧ ((processData inc m rows).getD i default).rest = (rows.getD i default).rest
        ∧ ((processData inc m rows).getD i default).clicks
            = some ((rows.getD i default).clicks.getD 0)
        ∧ ((processData inc m rows).getD i default).impressions
            = some ((rows.getD i default).impressions.getD 0) := by
  refine ⟨length_processData inc m rows, ?_⟩
  intro i hi
  rw [processData_getD inc m rows hi]
  exact ⟨rfl, rfl, rfl, rfl, rfl, rfl, rfl, rfl, rfl⟩

/-- Counterexample to C8 as stated: on a row whose clicks cell is null,
the clicks column of the output differs from the input (`some 0` vs
null), so not every pre-existing column is left unchanged. -/
theorem C8_counterexample :
    ((processData true 1 exNull).getD 0 default).clicks ≠ (exNull.getD 0 default).clicks := by
  simp +decide [processData, mkOut, clicksVal, exNull, exRow, List.range_succ]

/-- Witness for the amended C8 on `exNull`. -/
theorem C8_witness :
    (0 < exNull.length ∧ (processData true 1 exNull).length = exNull.length) ∧
    ((processData true 1 exNull).getD 0 default).clicks
      = some ((exNull.getD 0 default).clicks.getD 0) := by
  obtain ⟨hlen, hrow⟩ := C8_allocator_frame true 1 exNull
  obtain ⟨-, -, -, -, -, -, -, hclicks, -⟩ := hrow 0 (by decide)
  exact ⟨⟨by decide, hlen⟩, hclicks⟩

/-- **C9**: when some bound column (clicks, impressions, a grouping key
column, or a breakdown column) is absent from the table, the allocator
fails with `ColumnNotFoundError`: its result is that error — returned
synchronously, with no partial result. -/
theorem C9_missing_column_error (t : Table) (b : Bindings)
    (h : ∃ c ∈ boundCols b, c ∉ t.cols) :
    ∃ c ∈ boundCols b, c ∉ t.cols ∧
      processTable t b = Except.error (PDError.columnNotFound c) := by
  by_cases h1 : b.clicks ∈ t.cols
  case neg =>
    refine ⟨b.clicks, by simp [boundCols], h1, ?_⟩
    rw [processTable, getCol_error h1]
    rfl
  by_cases h2 : b.impressions ∈ t.cols
  case neg =>
    refine ⟨b.impressions, by simp [boundCols], h2, ?_⟩
    rw [processTable, getCol, if_pos h1, getCol_error h2]
    rfl
  by_cases h3 : b.url ∈ t.cols
  case neg =>
    refine ⟨b.url, by simp [boundCols], h3, ?_⟩
    rw [processTable, getCol, if_pos h1, getCol, if_pos h2, getCol_error h3]
    rfl
  by_cases h4 : b.country ∈ t.cols
  case neg =>
    refine ⟨b.country, by simp [boundCols], h4, ?_⟩
    rw [processTable, getCol, if_pos h1, getCol, if_pos h2, getCol, if_pos h3,
      getCol_error h4]
    rfl
  by_cases h5 : b.device ∈ t.cols
  case neg =>
    refine ⟨b.device, by simp [boundCols], h5, ?_⟩
    rw [processTable, getCol, if_pos h1, getCol, if_pos h2, getCol, if_pos h3,
      getCol, if_pos h4, getCol_error h5]
    rfl
  by_cases hd : b.includeDate
  case pos =>
    by_cases h6 : b.date ∈ t.cols
    case neg =>
      refine ⟨b.date, by simp [boundCols, hd], h6, ?_⟩
      rw [processTable, getCol, if_pos h1, getCol, if_pos h2, getCol, if_pos h3,
        getCol, if_pos h4, getCol, if_pos h5, dateCol, if_pos hd, getCol_error h6]
      rfl
    have hbd : ∃ c ∈ b.breakdown, c ∉ t.cols := by
      rcases h with ⟨c, hc, hnc⟩
      have hc2 : c = b.clicks ∨ c = b.impressions ∨ c = b.url ∨ c = b.country
          ∨ c = b.device ∨ c = b.date ∨ c ∈ b.breakdown := by
        simp [boundCols, hd] at hc
        tauto
      rcases hc2 with rfl | rfl | rfl | rfl | rfl | rfl | hcb
      · exact absurd h1 hnc
      · exact absurd h2 hnc
      · exact absurd h3 hnc
      · exact absurd h4 hnc
      · exact absurd h5 hnc
      · exact absurd h6 hnc
      · exact ⟨c, hcb, hnc⟩
    rcases mapM_getCol_error hbd with ⟨c, hcb, hnc, hmap⟩
    refine ⟨c, by simp [boundCols, hcb], hnc, ?_⟩
    rw [processTable, getCol, if_pos h1, getCol, if_pos h2, getCol, if_pos h3,
      getCol, if_pos h4, getCol, if_pos h5, dateCol, if_pos hd, getCol, if_pos h6, hmap]
    rfl
  case neg =>
    have hbd : ∃ c ∈ b.breakdown, c ∉ t.cols := by
      rcases h with ⟨c, hc, hnc⟩
      have hc2 : c = b.clicks ∨ c = b.impressions ∨ c = b.url ∨ c = b.country
          ∨ c = b.device ∨ c ∈ b.breakdown := by
        simp [boundCols, hd] at hc
        tauto
      rcases hc2 with rfl | rfl | rfl | rfl | rfl | hcb
      · exact absurd h1 hnc
      · exact absurd h2 hnc
      · exact absurd h3 hnc
      · exact absurd h4 hnc
      · exact absurd h5 hnc
      · exact ⟨c, hcb, hnc⟩
    rcases mapM_getCol_error hbd with ⟨c, hcb, hnc, hmap⟩
    refine ⟨c, by simp [boundCols, hcb], hnc, ?_⟩
    rw [processTable, getCol, if_pos h1, getCol, if_pos h2, getCol, if_pos h3,
      getCol, if_pos h4, getCol, if_pos h5, dateCol, if_neg hd, hmap]
    rfl

/-- A concrete table lacking the bound clicks column. -/
def exT : Table :=
  { cols := ["url", "country", "device", "date", "sessions"]
    rows := [[.str "u", .str "x", .str "d", .str "t", .num 3]] }

/-- Bindings naming a clicks column that `exT` does not have. -/
def exB : Bindings :=
  { url := "url", country := "country", device := "device", date := "date"
    clicks := "clicks", impressions := "impressions", breakdown := ["sessions"]
    includeDate := true }

/-- Witness for C9: `exT` lacks the bound clicks column and
`processTable` returns `ColumnNotFoundError`. -/
theorem C9_witness :
    (∃ c ∈ boundCols exB, c ∉ exT.cols) ∧
    ∃ c ∈ boundCols exB, c ∉ exT.cols ∧
      processTable exT exB = Except.error (PDError.columnNotFound c) := by
  have h : ∃ c ∈ boundCols exB, c ∉ exT.cols :=
    ⟨"clicks", by simp +decide [boundCols, exB], by simp +decide [exT]⟩
  exact ⟨h, C9_missing_column_error exT exB h⟩

end GA4GSC
